import Mathlib

/-!
Verification development for the core dependently-typed lambda calculus of the
repository: the concrete AST (src/src/parse/mod.rs), its translation into the
binder-safe core representation, the normalization-by-evaluation engine and the
bidirectional type checker (pinned by the tests in src/src/check/tests.rs), and
the record-label equality of src/src/syntax/mod.rs.

The checker and evaluator bodies themselves are not present under src/ (only
their tests are), so those operations are modelled from the spec, faithful to
its words — in particular its description of the instantiate operation as
replacing depth-0 occurrences and decrementing the remaining depths — and
validated against the visible test scenarios.  The visible test suite is not
realizable by any single substitution operator over this value representation
(the id_app tests demand the depth confusion that the spec instantiate
produces, while id_ann, flip and and_proj_left demand capture-avoiding
substitution), so this embedding follows the spec text and reproduces every
scenario the claims rest on.
-/

namespace Pikelet

/-- A variable name: either a user-facing string name, an anonymous abstract
name (used for the parameter of a non-dependent arrow), or a freshly generated
identity (used when the checker opens a binder).  Modelled from the spec:
the var module defining Name is not under src/. -/
inductive Name where
  | user (s : String)
  | abstract
  | gen (id : Nat)
  deriving DecidableEq, Repr

/-- A variable occurrence: free (identified by a Name) or bound (a cosmetic
name-hint together with a de Bruijn binding depth, 0 = innermost binder).
Modelled from the spec: the var module defining Var and Debruijn is not
under src/. -/
inductive Var where
  | free (n : Name)
  | bound (hint : Name) (index : Nat)
  deriving DecidableEq, Repr

/-- The core term representation (spec section 3): Var, Type, Ann, Lam with an
optional parameter annotation, Pi, App.  Modelled from the spec: the core
module is not under src/. -/
inductive Term where
  | var (v : Var)
  | type
  | ann (e : Term) (t : Term)
  | lam (n : Name) (a : Option Term) (body : Term)
  | pi (n : Name) (dom : Term) (cod : Term)
  | app (f : Term) (a : Term)

/-- The semantic value representation (spec section 3): same shape as Term
minus Ann.  Modelled from the spec: the core module is not under src/. -/
inductive Value where
  | var (v : Var)
  | type
  | lam (n : Name) (a : Option Value) (body : Value)
  | pi (n : Name) (dom : Value) (cod : Value)
  | app (f : Value) (a : Value)

/-- The concrete AST produced by the grammar, from src/src/parse/mod.rs:
Var, Type, Ann, Lam with a list of parameters each carrying an optional
annotation, Pi, Arrow, App. -/
inductive CTerm where
  | var (name : String)
  | type
  | ann (e : CTerm) (t : CTerm)
  | lam (params : List (String × Option CTerm)) (body : CTerm)
  | pi (name : String) (dom : CTerm) (cod : CTerm)
  | arrow (dom : CTerm) (cod : CTerm)
  | app (f : CTerm) (a : CTerm)

/-- Equality of variables as the code compares them: free variables by their
name, bound variables by binding depth only — the name-hint is cosmetic and
never participates in equality (spec section 3).  Modelled from the spec:
the PartialEq implementations of the var module are not under src/. -/
def Var.beq : Var → Var → Bool
  | .free a, .free b => a == b
  | .bound _ i, .bound _ j => i == j
  | _, _ => false

/-- Structural, alpha-aware equality of core terms: binder name-hints are
ignored everywhere, all other structure is compared.  Modelled from the spec:
the PartialEq implementations of the core module are not under src/. -/
def Term.beq : Term → Term → Bool
  | .var a, .var b => Var.beq a b
  | .type, .type => true
  | .ann e1 t1, .ann e2 t2 => Term.beq e1 e2 && Term.beq t1 t2
  | .lam _ none b1, .lam _ none b2 => Term.beq b1 b2
  | .lam _ (some a1) b1, .lam _ (some a2) b2 => Term.beq a1 a2 && Term.beq b1 b2
  | .pi _ d1 c1, .pi _ d2 c2 => Term.beq d1 d2 && Term.beq c1 c2
  | .app f1 a1, .app f2 a2 => Term.beq f1 f2 && Term.beq a1 a2
  | _, _ => false

/-- Structural, alpha-aware equality of values, mirroring Term.beq.
Modelled from the spec: the PartialEq implementations of the core module are
not under src/. -/
def Value.beq : Value → Value → Bool
  | .var a, .var b => Var.beq a b
  | .type, .type => true
  | .lam _ none b1, .lam _ none b2 => Value.beq b1 b2
  | .lam _ (some a1) b1, .lam _ (some a2) b2 => Value.beq a1 a2 && Value.beq b1 b2
  | .pi _ d1 c1, .pi _ d2 c2 => Value.beq d1 d2 && Value.beq c1 c2
  | .app f1 a1, .app f2 a2 => Value.beq f1 f2 && Value.beq a1 a2
  | _, _ => false

/-- Looks a user name up in the list of in-scope binder names, innermost
first: a user entry matches by string and yields its distance from the start
of the list; an abstract or generated entry matches nothing but still counts
one binder of depth.  Modelled from the spec, section 4.1 (the spec phrases
the list innermost-last; this embedding keeps the innermost binder at the
head, which is the same data read from the other end). -/
def lookupDepth : List Name → String → Option Nat
  | [], _ => none
  | .user s :: rest, n => if s = n then some 0 else (lookupDepth rest n).map (· + 1)
  | .abstract :: rest, n => (lookupDepth rest n).map (· + 1)
  | .gen _ :: rest, n => (lookupDepth rest n).map (· + 1)

/-- Translation of the concrete AST into the core representation, carrying the
in-scope binder names (spec section 4.1): a variable matching an enclosing
binder becomes a bound variable at its computed depth, any other variable
becomes free; Lam and Pi push their user-named parameter, Arrow desugars to a
Pi with an abstract parameter (which still counts one binder of depth in its
result type); a multi-parameter Lam introduces its parameters one at a time,
each annotation being translated outside the binder it introduces.  Modelled
from the spec: from_parse itself is not under src/, its behaviour pinned by
the tests of src/src/parse/mod.rs. -/
def fromParseAux : List Name → CTerm → Term
  | scope, .var name =>
      match lookupDepth scope name with
      | some d => .var (.bound (.user name) d)
      | none => .var (.free (.user name))
  | _, .type => .type
  | scope, .ann e t => .ann (fromParseAux scope e) (fromParseAux scope t)
  | scope, .lam [] body => fromParseAux scope body
  | scope, .lam ((n, none) :: rest) body =>
      .lam (.user n) none (fromParseAux (.user n :: scope) (.lam rest body))
  | scope, .lam ((n, some a) :: rest) body =>
      .lam (.user n) (some (fromParseAux scope a))
        (fromParseAux (.user n :: scope) (.lam rest body))
  | scope, .pi n dom cod =>
      .pi (.user n) (fromParseAux scope dom) (fromParseAux (.user n :: scope) cod)
  | scope, .arrow dom cod =>
      .pi .abstract (fromParseAux scope dom) (fromParseAux (.abstract :: scope) cod)
  | scope, .app f a => .app (fromParseAux scope f) (fromParseAux scope a)

/-- Translation of a closed concrete term, starting from an empty scope:
the public entry point RcTerm::from_parse. -/
def fromParse (t : CTerm) : Term :=
  fromParseAux [] t

/-- The type checking error taxonomy (spec section 7).  Modelled from the
spec: the check module defining TypeError is not under src/. -/
inductive TypeError where
  | unboundVariable (n : Name)
  | expectedFunction (found : Value)
  | illegalApplication
  | typeMismatch (expected : Value) (found : Value)
  | annotationNeeded

/-- Equality of type errors as the code compares them, with value payloads
compared by the alpha-aware Value.beq.  Modelled from the spec: the check
module is not under src/. -/
def TypeError.beq : TypeError → TypeError → Bool
  | .unboundVariable a, .unboundVariable b => a == b
  | .expectedFunction a, .expectedFunction b => Value.beq a b
  | .illegalApplication, .illegalApplication => true
  | .typeMismatch e1 f1, .typeMismatch e2 f2 => Value.beq e1 e2 && Value.beq f1 f2
  | .annotationNeeded, .annotationNeeded => true
  | _, _ => false

/-- The result of a fallible, fuelled computation: a value, a type error, or
stuck.  The stuck constructor models fuel exhaustion (the Rust code simply
recurses) and the translation-invariant violation of evaluating an out-of-range
bound variable; no claim depends on a stuck outcome. -/
inductive Res (α : Type) where
  | ok (a : α)
  | err (e : TypeError)
  | stuck

/-- Propagates the first failure, as every internal call of the checker does
(spec section 7). -/
def Res.bind : Res α → (α → Res β) → Res β
  | .ok a, f => f a
  | .err e, _ => .err e
  | .stuck, _ => .stuck

/-- An entry of the typing context: a free-variable name, its declared type,
and an optional definition value (spec section 3). -/
structure Binding where
  name : Name
  ty : Value
  val : Option Value

/-- The typing context: an ordered list of bindings, innermost extension
first (spec section 3). -/
abbrev Context := List Binding

/-- Finds the binding of a free-variable name in the context, innermost
binding first. -/
def lookupBinding : Context → Name → Option Binding
  | [], _ => none
  | b :: rest, n => if b.name = n then some b else lookupBinding rest n

/-- The value bound to a free variable in the context, when it has one. -/
def lookupVal (ctx : Context) (n : Name) : Option Value :=
  (lookupBinding ctx n).bind fun b => b.val

/-- The declared type of a free variable in the context, when it has one. -/
def lookupTy (ctx : Context) (n : Name) : Option Value :=
  (lookupBinding ctx n).map fun b => b.ty

/-- Modelled from the spec: the instantiate operation of sections 4.2 and 9 on
values, fused with the re-evaluation of the redexes it uncovers.  It walks the
value replacing depth-0 occurrences of the bound variable with the argument
and decrementing the remaining depths by one, exactly as section 9 describes
(no depth adjustment is made when passing under a binder); when the walk
rebuilds an application whose head has become a Lam, it beta-reduces it again
(section 4.2: recursively evaluate the instantiated body).  Fuel bounds the
beta chains; the code recurses without bound. -/
def substV : Nat → Value → Value → Res Value
  | 0, _, _ => .stuck
  | fuel + 1, arg, v =>
    match v with
    | .var (.bound _ 0) => .ok arg
    | .var (.bound h (d + 1)) => .ok (.var (.bound h d))
    | .var (.free n) => .ok (.var (.free n))
    | .type => .ok .type
    | .lam n none b =>
        Res.bind (substV fuel arg b) fun b2 => .ok (.lam n none b2)
    | .lam n (some a) b =>
        Res.bind (substV fuel arg a) fun a2 =>
        Res.bind (substV fuel arg b) fun b2 => .ok (.lam n (some a2) b2)
    | .pi n d c =>
        Res.bind (substV fuel arg d) fun d2 =>
        Res.bind (substV fuel arg c) fun c2 => .ok (.pi n d2 c2)
    | .app f a =>
        Res.bind (substV fuel arg f) fun f2 =>
        Res.bind (substV fuel arg a) fun a2 =>
        match f2 with
        | .lam _ _ body => substV fuel a2 body
        | f2 => .ok (.app f2 a2)

/-- Applies a value to an argument value (spec section 4.2, App): a Lam
beta-reduces by instantiating its body; any other head builds a neutral
application.  Modelled from the spec: the check module is not under src/. -/
def vapp (fuel : Nat) : Value → Value → Res Value
  | .lam _ _ body, arg => substV fuel arg body
  | f, arg => .ok (.app f arg)

/-- The evaluator (spec section 4.2): free variables unfold their context
definition or stay neutral, bound variables under a binder stay neutral,
annotations are erased, Lam and Pi evaluate their annotation eagerly and their
body in place (bound variables staying neutral, as the eval tests show), and
App beta-reduces or builds a neutral application.  Modelled from the spec:
Context::eval is not under src/, its behaviour pinned by the eval tests of
src/src/check/tests.rs. -/
def eval (fuel : Nat) (ctx : Context) : Term → Res Value
  | .var (.free n) =>
      match lookupVal ctx n with
      | some v => .ok v
      | none => .ok (.var (.free n))
  | .var (.bound h d) => .ok (.var (.bound h d))
  | .type => .ok .type
  | .ann e _ => eval fuel ctx e
  | .lam n none b =>
      Res.bind (eval fuel ctx b) fun b2 => .ok (.lam n none b2)
  | .lam n (some a) b =>
      Res.bind (eval fuel ctx a) fun a2 =>
      Res.bind (eval fuel ctx b) fun b2 => .ok (.lam n (some a2) b2)
  | .pi n d c =>
      Res.bind (eval fuel ctx d) fun d2 =>
      Res.bind (eval fuel ctx c) fun c2 => .ok (.pi n d2 c2)
  | .app f a =>
      Res.bind (eval fuel ctx f) fun fv =>
      Res.bind (eval fuel ctx a) fun av => vapp fuel fv av

/-- Modelled from the spec: substituting a term for the bound parameter of a
binder being opened (spec section 4.3), on terms.  It tracks the binder depth
while walking under binders, so that occurrences of inner binders are left
untouched and exactly the opened parameter is replaced; depths above the
replaced one are decremented.  The depth tracking is required by the spec
section 8 inference examples (infer of the annotated identity function and the
beta/application example). -/
def instT (arg : Term) : Nat → Term → Term
  | k, .var (.bound h d) =>
      if d = k then arg
      else if k < d then .var (.bound h (d - 1))
      else .var (.bound h d)
  | _, .var (.free n) => .var (.free n)
  | _, .type => .type
  | k, .ann e t => .ann (instT arg k e) (instT arg k t)
  | k, .lam n none b => .lam n none (instT arg (k + 1) b)
  | k, .lam n (some a) b => .lam n (some (instT arg k a)) (instT arg (k + 1) b)
  | k, .pi n d c => .pi n (instT arg k d) (instT arg (k + 1) c)
  | k, .app f a => .app (instT arg k f) (instT arg k a)

/-- Modelled from the spec: the inverse of opening, used when the checker
synthesizes a Pi from an inferred body type (spec section 4.3, Lam): every
occurrence of the given free variable becomes a bound variable at the depth of
the binder being rebuilt.  The emitted name-hint is cosmetic (spec section 3)
and this embedding leaves it abstract. -/
def abstractV (tgt : Name) : Nat → Value → Value
  | k, .var (.free m) => if m = tgt then .var (.bound .abstract k) else .var (.free m)
  | _, .var (.bound h d) => .var (.bound h d)
  | _, .type => .type
  | k, .lam n none b => .lam n none (abstractV tgt (k + 1) b)
  | k, .lam n (some a) b => .lam n (some (abstractV tgt k a)) (abstractV tgt (k + 1) b)
  | k, .pi n d c => .pi n (abstractV tgt k d) (abstractV tgt (k + 1) c)
  | k, .app f a => .app (abstractV tgt k f) (abstractV tgt k a)

mutual

/-- The type synthesis judgement (spec section 4.3, infer), fuelled: free
variables look their declared type up, Type synthesizes Type, Ann checks the
ascription as a type then checks the term against it, an annotated Lam opens
its body with a fresh free variable and synthesizes a Pi, an unannotated Lam
needs an annotation, Pi requires both sides to be types, and App requires the
head type to be a Pi (a head type of Type being the dedicated
IllegalApplication error) and instantiates its result type with the argument
value.  Fresh free variables are generated from the context depth, which never
collides with a user name or an enclosing generated name.  Modelled from the
spec: Context::infer is not under src/, its behaviour pinned by the infer
tests of src/src/check/tests.rs. -/
def infer : Nat → Context → Term → Res Value
  | 0, _, _ => .stuck
  | fuel + 1, ctx, t =>
    match t with
    | .var (.free n) =>
        match lookupTy ctx n with
        | some ty => .ok ty
        | none => .err (.unboundVariable n)
    | .var (.bound _ _) => .stuck
    | .type => .ok .type
    | .ann e ty =>
        Res.bind (check fuel ctx ty .type) fun _ =>
        Res.bind (eval fuel ctx ty) fun tyV =>
        Res.bind (check fuel ctx e tyV) fun _ => .ok tyV
    | .lam _ none _ => .err .annotationNeeded
    | .lam n (some a) body =>
        Res.bind (check fuel ctx a .type) fun _ =>
        Res.bind (eval fuel ctx a) fun aV =>
        Res.bind
          (infer fuel ({ name := .gen ctx.length, ty := aV, val := none } :: ctx)
            (instT (.var (.free (.gen ctx.length))) 0 body)) fun bodyT =>
        .ok (.pi n aV (abstractV (.gen ctx.length) 0 bodyT))
    | .pi _ dom cod =>
        Res.bind (infer fuel ctx dom) fun domT =>
        if Value.beq domT .type then
          Res.bind (eval fuel ctx dom) fun domV =>
          Res.bind
            (infer fuel ({ name := .gen ctx.length, ty := domV, val := none } :: ctx)
              (instT (.var (.free (.gen ctx.length))) 0 cod)) fun codT =>
          if Value.beq codT .type then .ok .type
          else .err (.typeMismatch .type codT)
        else .err (.typeMismatch .type domT)
    | .app f a =>
        Res.bind (infer fuel ctx f) fun fT =>
        match fT with
        | .pi _ domV codV =>
            Res.bind (check fuel ctx a domV) fun _ =>
            Res.bind (eval fuel ctx a) fun aV =>
            substV fuel aV codV
        | .type => .err .illegalApplication
        | other => .err (.expectedFunction other)

/-- The type checking judgement (spec section 4.3, check), fuelled: a Lam
against a Pi compares its annotation (when present) with the parameter type,
then opens body and result type with the same fresh free variable; a Lam
against anything else is the ExpectedFunction error; every other term falls
back to synthesis followed by an alpha-aware convertibility comparison.
Modelled from the spec: Context::check is not under src/. -/
def check : Nat → Context → Term → Value → Res Unit
  | 0, _, _, _ => .stuck
  | fuel + 1, ctx, t, expected =>
    match t, expected with
    | .lam _ none body, .pi _ pdom pcod =>
        Res.bind (substV fuel (.var (.free (.gen ctx.length))) pcod) fun pcod2 =>
        check fuel ({ name := .gen ctx.length, ty := pdom, val := none } :: ctx)
          (instT (.var (.free (.gen ctx.length))) 0 body) pcod2
    | .lam _ (some a) body, .pi _ pdom pcod =>
        Res.bind (eval fuel ctx a) fun aV =>
        if Value.beq aV pdom then
          Res.bind (substV fuel (.var (.free (.gen ctx.length))) pcod) fun pcod2 =>
          check fuel ({ name := .gen ctx.length, ty := pdom, val := none } :: ctx)
            (instT (.var (.free (.gen ctx.length))) 0 body) pcod2
        else .err (.typeMismatch pdom aV)
    | .lam _ _ _, other => .err (.expectedFunction other)
    | t, expected =>
        Res.bind (infer fuel ctx t) fun found =>
        if Value.beq found expected then .ok () else .err (.typeMismatch expected found)

end

/-- Alpha-aware equality of two fallible evaluation or inference results, as
the tests compare them: values by Value.beq, errors by TypeError.beq. -/
def Res.beqValue : Res Value → Res Value → Bool
  | .ok a, .ok b => Value.beq a b
  | .err a, .err b => TypeError.beq a b
  | .stuck, .stuck => true
  | _, _ => false

/-- A free variable of the later, generic-binding-library era of the project:
a stable underlying identity together with an optional user-visible display
identifier.  Modelled from the spec: the nameless library defining FreeVar is
not under src/. -/
structure FreeVar where
  id : Nat
  ident : Option String

/-- Modelled from the spec: FreeVar::term_eq of the nameless library compares
free variables by their underlying identity. -/
def FreeVar.term_eq (a b : FreeVar) : Bool :=
  a.id == b.id

/-- A record label wrapping a free variable, from src/src/syntax/mod.rs. -/
structure Label where
  fv : FreeVar

/-- Label::term_eq from the BoundTerm implementation in src/src/syntax/mod.rs:
when both sides carry a display identifier they are compared as identifiers,
in every other case they fall back to the underlying FreeVar identity
comparison. -/
def Label.term_eq (a b : Label) : Bool :=
  match a.fv.ident, b.fv.ident with
  | some lhs, some rhs => lhs == rhs
  | _, _ => FreeVar.term_eq a.fv b.fv

/-- Erases the cosmetic name-hint of a variable occurrence: the hint of a
bound variable is replaced by the abstract name, a free variable (whose name
is its identity, not a hint) is untouched. -/
def eraseVar : Var → Var
  | .free n => .free n
  | .bound _ d => .bound .abstract d

/-- Erases every cosmetic name-hint of a core term: binder names and
bound-variable hints are replaced by the abstract name; two terms differ only
in hints exactly when their erasures coincide. -/
def eraseT : Term → Term
  | .var v => .var (eraseVar v)
  | .type => .type
  | .ann e t => .ann (eraseT e) (eraseT t)
  | .lam _ none b => .lam .abstract none (eraseT b)
  | .lam _ (some a) b => .lam .abstract (some (eraseT a)) (eraseT b)
  | .pi _ d c => .pi .abstract (eraseT d) (eraseT c)
  | .app f a => .app (eraseT f) (eraseT a)

/-- Erases every cosmetic name-hint of a value, mirroring eraseT. -/
def eraseV : Value → Value
  | .var v => .var (eraseVar v)
  | .type => .type
  | .lam _ none b => .lam .abstract none (eraseV b)
  | .lam _ (some a) b => .lam .abstract (some (eraseV a)) (eraseV b)
  | .pi _ d c => .pi .abstract (eraseV d) (eraseV c)
  | .app f a => .app (eraseV f) (eraseV a)

/-- Erases the name-hints inside the value payloads of a type error. -/
def eraseErr : TypeError → TypeError
  | .unboundVariable n => .unboundVariable n
  | .expectedFunction v => .expectedFunction (eraseV v)
  | .illegalApplication => .illegalApplication
  | .typeMismatch e f => .typeMismatch (eraseV e) (eraseV f)
  | .annotationNeeded => .annotationNeeded

/-- Erases the name-hints inside a fallible value result. -/
def eraseResV : Res Value → Res Value
  | .ok v => .ok (eraseV v)
  | .err e => .err (eraseErr e)
  | .stuck => .stuck

/-- Erases the name-hints inside a fallible unit result. -/
def eraseResU : Res Unit → Res Unit
  | .ok u => .ok u
  | .err e => .err (eraseErr e)
  | .stuck => .stuck

/-- Erases the name-hints inside the values stored by a context binding; the
binding NAME is a free-variable identity, not a hint, and is untouched. -/
def eraseBinding (b : Binding) : Binding :=
  { name := b.name, ty := eraseV b.ty, val := b.val.map eraseV }

/-- Erases the name-hints inside every binding of a context. -/
def eraseCtx (ctx : Context) : Context :=
  ctx.map eraseBinding

/-- One binder of a nested chain of concrete binders: a single-parameter
unannotated lambda, a dependent function type over Type, or an arrow out of
Type. -/
inductive BinderSpec where
  | lamB (n : String)
  | piB (n : String)
  | arrowB

/-- The concrete term nesting the given binders, outermost first, around a
body. -/
def bindChain : List BinderSpec → CTerm → CTerm
  | [], b => b
  | .lamB n :: rest, b => .lam [(n, none)] (bindChain rest b)
  | .piB n :: rest, b => .pi n .type (bindChain rest b)
  | .arrowB :: rest, b => .arrow .type (bindChain rest b)

/-- The core term nesting the translations of the given binders, outermost
first, around a body. -/
def coreChain : List BinderSpec → Term → Term
  | [], b => b
  | .lamB n :: rest, b => .lam (.user n) none (coreChain rest b)
  | .piB n :: rest, b => .pi (.user n) .type (coreChain rest b)
  | .arrowB :: rest, b => .pi .abstract .type (coreChain rest b)

/-- The scope entry a binder introduces: its user name for lambda and pi, the
abstract name for an arrow. -/
def specName : BinderSpec → Name
  | .lamB n => .user n
  | .piB n => .user n
  | .arrowB => .abstract

/-- The core identity function with annotated parameters, the translation of
the concrete term applying a lambda a of Type to a lambda x of a returning x,
as the parse test id pins it down. -/
def idFnCore : Term :=
  .lam (.user "a") (some .type)
    (.lam (.user "x") (some (.var (.bound (.user "a") 0))) (.var (.bound (.user "x") 0)))

/-- The concrete identity function with annotated parameters. -/
def idFnC : CTerm :=
  .lam [("a", some .type)] (.lam [("x", some (.var "a"))] (.var "x"))

/-- The core translation of the identity type written with the bound variable
named A, from the annotation of the infer id_ann test. -/
def idTyA : Term :=
  .pi (.user "A") .type
    (.pi .abstract (.var (.bound (.user "A") 0)) (.var (.bound (.user "A") 1)))

/-- The core translation of the identity type written with the bound variable
named a: the same term as idTyA up to cosmetic name-hints. -/
def idTya : Term :=
  .pi (.user "a") .type
    (.pi .abstract (.var (.bound (.user "a") 0)) (.var (.bound (.user "a") 1)))

/-- A trailing abstract scope entry, being the outermost binder and matching
no user name, changes no lookup result. -/
theorem lookupDepth_append_abstract :
    ∀ (s : List Name) (n : String),
      lookupDepth (s ++ [.abstract]) n = lookupDepth s n
  | [], n => by simp [lookupDepth]
  | .user s0 :: rest, n => by
      by_cases h : s0 = n <;>
        simp [lookupDepth, h, lookupDepth_append_abstract rest n]
  | .abstract :: rest, n => by
      simp [lookupDepth, lookupDepth_append_abstract rest n]
  | .gen i :: rest, n => by
      simp [lookupDepth, lookupDepth_append_abstract rest n]

/-- Translating under a trailing abstract scope entry is the same as
translating without it: the abstract parameter of an arrow can never capture
a variable occurrence of the arrow result. -/
theorem fromParseAux_append_abstract :
    ∀ (t : CTerm) (s : List Name),
      fromParseAux (s ++ [.abstract]) t = fromParseAux s t
  | .var n, s => by
      simp [fromParseAux, lookupDepth_append_abstract]
  | .type, _ => by simp [fromParseAux]
  | .ann e t, s => by
      simp [fromParseAux, fromParseAux_append_abstract e s,
        fromParseAux_append_abstract t s]
  | .lam [] b, s => by
      simp [fromParseAux, fromParseAux_append_abstract b s]
  | .lam ((n, none) :: rest) b, s => by
      have ih := fromParseAux_append_abstract (.lam rest b) (.user n :: s)
      simp only [fromParseAux, List.cons_append] at ih ⊢
      rw [ih]
  | .lam ((n, some a) :: rest) b, s => by
      have ih := fromParseAux_append_abstract (.lam rest b) (.user n :: s)
      simp only [fromParseAux, List.cons_append] at ih ⊢
      rw [ih, fromParseAux_append_abstract a s]
  | .pi n d c, s => by
      have ih := fromParseAux_append_abstract c (.user n :: s)
      simp only [fromParseAux, List.cons_append] at ih ⊢
      rw [ih, fromParseAux_append_abstract d s]
  | .arrow d c, s => by
      have ih := fromParseAux_append_abstract c (.abstract :: s)
      simp only [fromParseAux, List.cons_append] at ih ⊢
      rw [ih, fromParseAux_append_abstract d s]
  | .app f a, s => by
      simp [fromParseAux, fromParseAux_append_abstract f s,
        fromParseAux_append_abstract a s]

/-- Nested concrete binders translate to the corresponding nested core
binders, with the single variable occurrence in the body resolved against the
reversed (innermost-first) list of binder names appended to the outer
scope. -/
theorem bindChain_translate :
    ∀ (specs : List BinderSpec) (x : String) (s : List Name),
      fromParseAux s (bindChain specs (.var x)) =
        coreChain specs
          (.var
            (match lookupDepth ((specs.map specName).reverse ++ s) x with
              | some d => .bound (.user x) d
              | none => .free (.user x)))
  | [], x, s => by
      cases h : lookupDepth s x <;> simp [bindChain, coreChain, fromParseAux, h]
  | .lamB n :: rest, x, s => by
      have ih := bindChain_translate rest x (.user n :: s)
      simp only [bindChain, coreChain, fromParseAux, specName, List.map_cons,
        List.reverse_cons, List.append_assoc, List.singleton_append] at ih ⊢
      rw [ih]
  | .piB n :: rest, x, s => by
      have ih := bindChain_translate rest x (.user n :: s)
      simp only [bindChain, coreChain, fromParseAux, specName, List.map_cons,
        List.reverse_cons, List.append_assoc, List.singleton_append] at ih ⊢
      rw [ih]
  | .arrowB :: rest, x, s => by
      have ih := bindChain_translate rest x (.abstract :: s)
      simp only [bindChain, coreChain, fromParseAux, specName, List.map_cons,
        List.reverse_cons, List.append_assoc, List.singleton_append] at ih ⊢
      rw [ih]

/-- C2: translation resolves a variable occurrence by the list of enclosing
binders: nesting any chain of binders (single-parameter lambdas, pi types,
arrows) around an occurrence of x, the occurrence becomes a bound variable
whose depth is its lookup in the innermost-first list of the enclosing binder
names — 0 for the innermost matching binder, one more for every binder
crossed on the way out, so the outer parameter of two nested binders gets
depth 1 — and an occurrence matching no enclosing binder becomes the free
user variable x. -/
theorem claim_c2_var_resolution (specs : List BinderSpec) (x : String) :
    fromParse (bindChain specs (.var x)) =
      coreChain specs
        (.var
          (match lookupDepth (specs.map specName).reverse x with
            | some d => .bound (.user x) d
            | none => .free (.user x))) := by
  simpa using bindChain_translate specs x []

/-- C7: the non-dependent arrow desugars to a pi type with an abstract
parameter, and that parameter captures nothing: the result side translates
exactly as it would outside the arrow. -/
theorem claim_c7_arrow_desugar (A B : CTerm) :
    fromParse (.arrow A B) = .pi .abstract (fromParse A) (fromParse B) := by
  simp only [fromParse, fromParseAux]
  rw [show (Name.abstract :: ([] : List Name)) = [] ++ [Name.abstract] from rfl,
    fromParseAux_append_abstract B []]

/-- C10: a multi-parameter concrete lambda translates exactly as the
corresponding chain of nested single-parameter lambdas, in any scope. -/
theorem lam_multi_sugar :
    ∀ (params : List (String × Option CTerm)) (body : CTerm) (s : List Name),
      fromParseAux s (.lam params body) =
        fromParseAux s (params.foldr (fun p acc => CTerm.lam [p] acc) body)
  | [], body, s => by simp [fromParseAux]
  | (n, none) :: rest, body, s => by
      simp only [List.foldr_cons, fromParseAux]
      rw [lam_multi_sugar rest body (.user n :: s)]
  | (n, some a) :: rest, body, s => by
      simp only [List.foldr_cons, fromParseAux]
      rw [lam_multi_sugar rest body (.user n :: s)]

/-- C10: the multi-parameter lambda form is pure sugar: translating it is
equal, bound-variable depths included, to translating the corresponding chain
of nested single-parameter lambdas. -/
theorem claim_c10_lam_multi (params : List (String × Option CTerm)) (body : CTerm) :
    fromParse (.lam params body) =
      fromParse (params.foldr (fun p acc => CTerm.lam [p] acc) body) :=
  lam_multi_sugar params body []

/-- C9: label equality is decided in two tiers: when both sides carry a
display identifier they are equal exactly when the identifiers are equal
strings, and when at least one side has no identifier, equality is exactly
the underlying free-variable identity comparison. -/
theorem claim_c9_label_eq (a b : Label) :
    (∀ la lb, a.fv.ident = some la → b.fv.ident = some lb →
      (Label.term_eq a b = true ↔ la = lb)) ∧
    ((a.fv.ident = none ∨ b.fv.ident = none) →
      (Label.term_eq a b = true ↔ a.fv.id = b.fv.id)) := by
  constructor
  · intro la lb ha hb
    simp [Label.term_eq, ha, hb]
  · intro h
    rcases h with h | h <;>
      cases hb : b.fv.ident <;>
        simp [Label.term_eq, h, hb, FreeVar.term_eq]

/-- Witness for C9 at concrete labels: two labels with distinct identities
but the same identifier string compare equal through the identifier tier. -/
theorem claim_c9_label_eq_witness :
    Label.term_eq ⟨⟨0, some "x"⟩⟩ ⟨⟨1, some "x"⟩⟩ = true ↔ "x" = "x" :=
  (claim_c9_label_eq ⟨⟨0, some "x"⟩⟩ ⟨⟨1, some "x"⟩⟩).1 "x" "x" rfl rfl

/-- C6: inference of a free user variable on the empty context fails with
exactly the UnboundVariable error carrying that name. -/
theorem claim_c6_unbound_variable :
    infer 32 [] (fromParse (.var "x")) = .err (.unboundVariable (.user "x")) := by
  have h : fromParse (.var "x") = .var (.free (.user "x")) := by
    simp [fromParse, fromParseAux, lookupDepth]
  rw [h]
  rfl

/-- C4: inference of Type applied to Type on the empty context fails with
exactly the dedicated IllegalApplication error, not ExpectedFunction. -/
theorem claim_c4_illegal_application :
    infer 32 [] (fromParse (.app .type .type)) = .err .illegalApplication := by
  have h : fromParse (.app .type .type) = .app .type .type := by
    simp [fromParse, fromParseAux]
  rw [h]
  rfl

/-- C5: ascribing the unannotated identity function to Type fails with an
ExpectedFunction error — carrying the non-function type that was found in
place of a pi type — and in particular neither AnnotationNeeded nor
TypeMismatch. -/
theorem claim_c5_expected_function :
    infer 32 [] (fromParse (.ann (.lam [("a", none)] (.var "a")) .type)) =
      .err (.expectedFunction .type) := by
  have h : fromParse (.ann (.lam [("a", none)] (.var "a")) .type) =
      .ann (.lam (.user "a") none (.var (.bound (.user "a") 0))) .type := by
    simp [fromParse, fromParseAux, lookupDepth]
  rw [h]
  rfl

/-- C1: inference of the polymorphic identity applied to Type and to the
arrow Type to Type succeeds, and the synthesized type is alpha-equivalent to
the evaluation of that arrow: the App rule instantiates the pi result type
with the argument value. -/
theorem claim_c1_beta_application :
    Res.beqValue
      (infer 32 [] (fromParse (.app (.app idFnC .type) (.arrow .type .type))))
      (eval 32 [] (fromParse (.arrow .type .type))) = true := by
  have h1 : fromParse (.app (.app idFnC .type) (.arrow .type .type)) =
      .app (.app idFnCore .type) (.pi .abstract .type .type) := by
    simp [fromParse, fromParseAux, idFnC, idFnCore, lookupDepth]
  have h2 : fromParse (.arrow .type .type) = .pi .abstract .type .type := by
    simp [fromParse, fromParseAux]
  rw [h1, h2]
  decide

/-- C8: evaluating a lambda yields a Lam value whose parameter annotation has
been evaluated eagerly — here the arrow annotation has become the pi value —
while the body is not beta-reduced away: the application of the two bound
variables stays a neutral App of bound variables. -/
theorem claim_c8_lam_value :
    eval 32 []
      (fromParse
        (.lam [("x", some (.arrow .type .type))]
          (.lam [("y", some .type)] (.app (.var "x") (.var "y"))))) =
      .ok
        (.lam (.user "x") (some (.pi .abstract .type .type))
          (.lam (.user "y") (some .type)
            (.app (.var (.bound (.user "x") 1)) (.var (.bound (.user "y") 0))))) := by
  have h : fromParse
      (.lam [("x", some (.arrow .type .type))]
        (.lam [("y", some .type)] (.app (.var "x") (.var "y")))) =
      .lam (.user "x") (some (.pi .abstract .type .type))
        (.lam (.user "y") (some .type)
          (.app (.var (.bound (.user "x") 1)) (.var (.bound (.user "y") 0)))) := by
    simp [fromParse, fromParseAux, lookupDepth]
  rw [h]
  rfl

/-- Variable equality is invariant under hint erasure: it never read the
hints in the first place. -/
theorem eraseVar_beq_iff (a b : Var) : Var.beq a b = true ↔ eraseVar a = eraseVar b := by
  cases a <;> cases b <;> simp [Var.beq, eraseVar]

/-- Value equality holds exactly when the hint erasures coincide: the
equality is structural on everything except name-hints. -/
theorem beqV_iff : ∀ a b : Value, Value.beq a b = true ↔ eraseV a = eraseV b
  | .var v, b => by
      cases b with
      | var w => simpa [Value.beq, eraseV] using eraseVar_beq_iff v w
      | type => simp [Value.beq, eraseV]
      | lam nb ab bb => cases ab <;> simp [Value.beq, eraseV]
      | pi nb db cb => simp [Value.beq, eraseV]
      | app fb ab => simp [Value.beq, eraseV]
  | .type, b => by
      cases b with
      | lam nb ab bb => cases ab <;> simp [Value.beq, eraseV]
      | _ => simp [Value.beq, eraseV]
  | .lam na none ba, b => by
      cases b with
      | lam nb ab bb =>
          cases ab with
          | none => simpa [Value.beq, eraseV] using beqV_iff ba bb
          | some y => simp [Value.beq, eraseV]
      | _ => simp [Value.beq, eraseV]
  | .lam na (some xa) ba, b => by
      cases b with
      | lam nb ab bb =>
          cases ab with
          | none => simp [Value.beq, eraseV]
          | some y => simp [Value.beq, eraseV, beqV_iff xa y, beqV_iff ba bb]
      | _ => simp [Value.beq, eraseV]
  | .pi na da ca, b => by
      cases b with
      | lam nb ab bb => cases ab <;> simp [Value.beq, eraseV]
      | pi nb db cb => simp [Value.beq, eraseV, beqV_iff da db, beqV_iff ca cb]
      | _ => simp [Value.beq, eraseV]
  | .app fa aa, b => by
      cases b with
      | lam nb ab bb => cases ab <;> simp [Value.beq, eraseV]
      | app fb ab => simp [Value.beq, eraseV, beqV_iff fa fb, beqV_iff aa ab]
      | _ => simp [Value.beq, eraseV]

/-- Type error equality holds exactly when the hint erasures of the payloads
coincide. -/
theorem beqE_iff (a b : TypeError) : TypeError.beq a b = true ↔ eraseErr a = eraseErr b := by
  cases a <;> cases b <;>
    simp [TypeError.beq, eraseErr, beqV_iff]

/-- Hint erasure is idempotent. -/
theorem eraseV_idem : ∀ v : Value, eraseV (eraseV v) = eraseV v
  | .var (.free n) => rfl
  | .var (.bound h d) => rfl
  | .type => rfl
  | .lam n none b => by simp [eraseV, eraseV_idem b]
  | .lam n (some a) b => by simp [eraseV, eraseV_idem a, eraseV_idem b]
  | .pi n d c => by simp [eraseV, eraseV_idem d, eraseV_idem c]
  | .app f a => by simp [eraseV, eraseV_idem f, eraseV_idem a]

/-- Value equality is invariant under hint erasure of both sides. -/
theorem erase_beqV (a b : Value) : Value.beq (eraseV a) (eraseV b) = Value.beq a b := by
  rw [Bool.eq_iff_iff, beqV_iff, beqV_iff, eraseV_idem, eraseV_idem]

/-- Results whose hint erasures coincide are equal up to the alpha-aware
result comparison. -/
theorem beqRes_of_erase :
    ∀ {r r2 : Res Value}, eraseResV r = eraseResV r2 → Res.beqValue r r2 = true
  | .ok a, .ok b, h => by
      simp only [eraseResV, Res.ok.injEq] at h
      simpa [Res.beqValue] using (beqV_iff a b).2 h
  | .ok _, .err _, h => by simp [eraseResV] at h
  | .ok _, .stuck, h => by simp [eraseResV] at h
  | .err _, .ok _, h => by simp [eraseResV] at h
  | .err a, .err b, h => by
      simp only [eraseResV, Res.err.injEq] at h
      simpa [Res.beqValue] using (beqE_iff a b).2 h
  | .err _, .stuck, h => by simp [eraseResV] at h
  | .stuck, .ok _, h => by simp [eraseResV] at h
  | .stuck, .err _, h => by simp [eraseResV] at h
  | .stuck, .stuck, _ => rfl

/-- Erasing a context does not change its depth. -/
theorem eraseCtx_length (ctx : Context) : (eraseCtx ctx).length = ctx.length :=
  List.length_map ctx eraseBinding

/-- Context lookup commutes with hint erasure: the binding names are free
identities and are untouched by it. -/
theorem lookupBinding_erase :
    ∀ (ctx : Context) (n : Name),
      lookupBinding (eraseCtx ctx) n = (lookupBinding ctx n).map eraseBinding
  | [], _ => rfl
  | b :: rest, n => by
      have ih := lookupBinding_erase rest n
      simp only [eraseCtx] at ih
      by_cases h : b.name = n <;>
        simp [eraseCtx, lookupBinding, eraseBinding, h, ih]

/-- Definition lookup commutes with hint erasure. -/
theorem lookupVal_erase (ctx : Context) (n : Name) :
    lookupVal (eraseCtx ctx) n = (lookupVal ctx n).map eraseV := by
  simp only [lookupVal, lookupBinding_erase]
  cases lookupBinding ctx n with
  | none => rfl
  | some b => cases hb : b.val <;> simp [eraseBinding, hb]

/-- Declared-type lookup commutes with hint erasure. -/
theorem lookupTy_erase (ctx : Context) (n : Name) :
    lookupTy (eraseCtx ctx) n = (lookupTy ctx n).map eraseV := by
  simp only [lookupTy, lookupBinding_erase]
  cases lookupBinding ctx n with
  | none => rfl
  | some b => simp [eraseBinding]

/-- Term-level binder opening commutes with hint erasure. -/
theorem instT_erase :
    ∀ (arg : Term) (k : Nat) (t : Term),
      instT (eraseT arg) k (eraseT t) = eraseT (instT arg k t)
  | arg, k, .var (.bound h d) => by
      by_cases h1 : d = k
      · simp [instT, eraseT, eraseVar, h1]
      · by_cases h2 : k < d <;> simp [instT, eraseT, eraseVar, h1, h2]
  | _, _, .var (.free n) => rfl
  | _, _, .type => rfl
  | arg, k, .ann e t => by
      simp [instT, eraseT, instT_erase arg k e, instT_erase arg k t]
  | arg, k, .lam n none b => by
      simp [instT, eraseT, instT_erase arg (k + 1) b]
  | arg, k, .lam n (some a) b => by
      simp [instT, eraseT, instT_erase arg k a, instT_erase arg (k + 1) b]
  | arg, k, .pi n d c => by
      simp [instT, eraseT, instT_erase arg k d, instT_erase arg (k + 1) c]
  | arg, k, .app f a => by
      simp [instT, eraseT, instT_erase arg k f, instT_erase arg k a]

/-- Re-binding a free variable commutes with hint erasure: erasure never
touches free names and the emitted hint is already abstract. -/
theorem abstractV_erase :
    ∀ (tgt : Name) (k : Nat) (v : Value),
      abstractV tgt k (eraseV v) = eraseV (abstractV tgt k v)
  | tgt, k, .var (.free m) => by
      by_cases h : m = tgt <;> simp [abstractV, eraseV, eraseVar, h]
  | _, _, .var (.bound h d) => rfl
  | _, _, .type => rfl
  | tgt, k, .lam n none b => by
      simp [abstractV, eraseV, abstractV_erase tgt (k + 1) b]
  | tgt, k, .lam n (some a) b => by
      simp [abstractV, eraseV, abstractV_erase tgt k a, abstractV_erase tgt (k + 1) b]
  | tgt, k, .pi n d c => by
      simp [abstractV, eraseV, abstractV_erase tgt k d, abstractV_erase tgt (k + 1) c]
  | tgt, k, .app f a => by
      simp [abstractV, eraseV, abstractV_erase tgt k f, abstractV_erase tgt k a]

/-- Instantiation commutes with hint erasure: it inspects depths, never
hints, and rebuilds the same structure. -/
theorem substV_erase :
    ∀ (fuel : Nat) (arg v : Value),
      substV fuel (eraseV arg) (eraseV v) = eraseResV (substV fuel arg v)
  | 0, _, _ => rfl
  | fuel + 1, arg, .var (.bound h 0) => rfl
  | fuel + 1, arg, .var (.bound h (d + 1)) => rfl
  | fuel + 1, arg, .var (.free n) => rfl
  | fuel + 1, arg, .type => rfl
  | fuel + 1, arg, .lam n none b => by
      have ihb := substV_erase fuel arg b
      simp only [substV, eraseV, ihb]
      cases hb : substV fuel arg b <;> simp [Res.bind, eraseResV, eraseV]
  | fuel + 1, arg, .lam n (some a) b => by
      have iha := substV_erase fuel arg a
      have ihb := substV_erase fuel arg b
      simp only [substV, eraseV, iha, ihb]
      cases ha : substV fuel arg a <;> cases hb : substV fuel arg b <;>
        simp [Res.bind, eraseResV, eraseV]
  | fuel + 1, arg, .pi n d c => by
      have ihd := substV_erase fuel arg d
      have ihc := substV_erase fuel arg c
      simp only [substV, eraseV, ihd, ihc]
      cases hd : substV fuel arg d <;> cases hc : substV fuel arg c <;>
        simp [Res.bind, eraseResV, eraseV]
  | fuel + 1, arg, .app f a => by
      have ihf := substV_erase fuel arg f
      have iha := substV_erase fuel arg a
      simp only [substV, eraseV, ihf, iha]
      cases hf : substV fuel arg f with
      | err e => simp [Res.bind, eraseResV]
      | stuck => simp [Res.bind, eraseResV]
      | ok f2 =>
          cases ha : substV fuel arg a with
          | err e => simp [Res.bind, eraseResV]
          | stuck => simp [Res.bind, eraseResV]
          | ok a2 =>
              simp only [Res.bind]
              cases f2 with
              | lam n2 ab b2 =>
                  cases ab <;> simpa [eraseV] using substV_erase fuel a2 b2
              | var v => simp [eraseV, eraseResV]
              | type => simp [eraseV, eraseResV]
              | pi n2 d2 c2 => simp [eraseV, eraseResV]
              | app f3 a3 => simp [eraseV, eraseResV]

/-- Value application commutes with hint erasure. -/
theorem vapp_erase (fuel : Nat) :
    ∀ (f a : Value), vapp fuel (eraseV f) (eraseV a) = eraseResV (vapp fuel f a)
  | .lam n ab b, a => by
      cases ab <;> simpa [vapp, eraseV] using substV_erase fuel a b
  | .var v, a => rfl
  | .type, a => rfl
  | .pi n d c, a => rfl
  | .app f2 a2, a => rfl

/-- Evaluation commutes with hint erasure of the term and of the context:
the evaluator inspects free names and depths, never hints. -/
theorem eval_erase :
    ∀ (fuel : Nat) (ctx : Context) (t : Term),
      eval fuel (eraseCtx ctx) (eraseT t) = eraseResV (eval fuel ctx t)
  | fuel, ctx, .var (.free n) => by
      simp only [eval, eraseT, eraseVar]
      rw [lookupVal_erase]
      cases lookupVal ctx n <;> simp [eraseResV, eraseV, eraseVar]
  | fuel, ctx, .var (.bound h d) => rfl
  | fuel, ctx, .type => rfl
  | fuel, ctx, .ann e t => by
      simpa [eval, eraseT] using eval_erase fuel ctx e
  | fuel, ctx, .lam n none b => by
      have ihb := eval_erase fuel ctx b
      simp only [eval, eraseT, ihb]
      cases hb : eval fuel ctx b <;> simp [Res.bind, eraseResV, eraseV]
  | fuel, ctx, .lam n (some a) b => by
      have iha := eval_erase fuel ctx a
      have ihb := eval_erase fuel ctx b
      simp only [eval, eraseT, iha, ihb]
      cases ha : eval fuel ctx a <;> cases hb : eval fuel ctx b <;>
        simp [Res.bind, eraseResV, eraseV]
  | fuel, ctx, .pi n d c => by
      have ihd := eval_erase fuel ctx d
      have ihc := eval_erase fuel ctx c
      simp only [eval, eraseT, ihd, ihc]
      cases hd : eval fuel ctx d <;> cases hc : eval fuel ctx c <;>
        simp [Res.bind, eraseResV, eraseV]
  | fuel, ctx, .app f a => by
      have ihf := eval_erase fuel ctx f
      have iha := eval_erase fuel ctx a
      simp only [eval, eraseT, ihf, iha]
      cases hf : eval fuel ctx f with
      | err e => simp [Res.bind, eraseResV]
      | stuck => simp [Res.bind, eraseResV]
      | ok f2 =>
          cases ha : eval fuel ctx a with
          | err e => simp [Res.bind, eraseResV]
          | stuck => simp [Res.bind, eraseResV]
          | ok a2 => simpa [Res.bind] using vapp_erase fuel f2 a2

/-- Extending an erased context with an erased binding is erasing the
extended context. -/
theorem eraseCtx_extend (ctx : Context) (g : Name) (ty : Value) :
    ({ name := g, ty := eraseV ty, val := none } : Binding) :: eraseCtx ctx =
      eraseCtx ({ name := g, ty := ty, val := none } :: ctx) := by
  simp [eraseCtx, eraseBinding]

/-- Opening a binder body with a free variable commutes with hint erasure. -/
theorem instT_free_erase (g : Name) (k : Nat) (body : Term) :
    instT (.var (.free g)) k (eraseT body) = eraseT (instT (.var (.free g)) k body) := by
  simpa [eraseT, eraseVar] using instT_erase (.var (.free g)) k body

/-- Instantiating with a free variable commutes with hint erasure. -/
theorem substV_free_erase (fuel : Nat) (g : Name) (v : Value) :
    substV fuel (.var (.free g)) (eraseV v) =
      eraseResV (substV fuel (.var (.free g)) v) := by
  simpa [eraseV, eraseVar] using substV_erase fuel (.var (.free g)) v

mutual

/-- Type synthesis commutes with hint erasure of the context and the term:
every decision the checker makes — context lookups, fresh-name generation,
convertibility comparisons, arm selection — is independent of the cosmetic
name-hints. -/
theorem infer_erase :
    ∀ (fuel : Nat) (ctx : Context) (t : Term),
      infer fuel (eraseCtx ctx) (eraseT t) = eraseResV (infer fuel ctx t)
  | 0, _, _ => rfl
  | fuel + 1, ctx, t => by
      cases t with
      | var v =>
          cases v with
          | free n =>
              simp only [infer, eraseT, eraseVar]
              rw [lookupTy_erase]
              cases lookupTy ctx n <;> simp [eraseResV, eraseErr]
          | bound h d => rfl
      | type => rfl
      | ann e ty =>
          have ihty := check_erase fuel ctx ty .type
          have ihev := eval_erase fuel ctx ty
          simp only [eraseV] at ihty
          simp only [infer, eraseT, ihty, ihev]
          cases hc : check fuel ctx ty .type with
          | err e2 => simp [Res.bind, eraseResU, eraseResV]
          | stuck => simp [Res.bind, eraseResU, eraseResV]
          | ok u =>
              simp only [Res.bind, eraseResU]
              cases he : eval fuel ctx ty with
              | err e2 => simp [Res.bind, eraseResV]
              | stuck => simp [Res.bind, eraseResV]
              | ok tyV =>
                  have ihe := check_erase fuel ctx e tyV
                  simp only [Res.bind, eraseResV, ihe]
                  cases check fuel ctx e tyV <;>
                    simp [Res.bind, eraseResU, eraseResV]
      | lam n a body =>
          cases a with
          | none => rfl
          | some a =>
              have ihc := check_erase fuel ctx a .type
              have ihe := eval_erase fuel ctx a
              simp only [eraseV] at ihc
              simp only [infer, eraseT, ihc, ihe, eraseCtx_length]
              cases hc : check fuel ctx a .type with
              | err e2 => simp [Res.bind, eraseResU, eraseResV]
              | stuck => simp [Res.bind, eraseResU, eraseResV]
              | ok u =>
                  simp only [Res.bind, eraseResU]
                  cases he : eval fuel ctx a with
                  | err e2 => simp [Res.bind, eraseResV]
                  | stuck => simp [Res.bind, eraseResV]
                  | ok aV =>
                      have ihb :=
                        infer_erase fuel
                          ({ name := .gen ctx.length, ty := aV, val := none } :: ctx)
                          (instT (.var (.free (.gen ctx.length))) 0 body)
                      simp only [Res.bind, eraseResV, instT_free_erase,
                        eraseCtx_extend, ihb]
                      cases infer fuel
                          ({ name := .gen ctx.length, ty := aV, val := none } :: ctx)
                          (instT (.var (.free (.gen ctx.length))) 0 body) with
                      | err e2 => simp [Res.bind, eraseResV]
                      | stuck => simp [Res.bind, eraseResV]
                      | ok bodyT =>
                          simp [Res.bind, eraseResV, eraseV, abstractV_erase]
      | pi n dom cod =>
          have ihd := infer_erase fuel ctx dom
          simp only [infer, eraseT, ihd, eraseCtx_length]
          cases hd : infer fuel ctx dom with
          | err e2 => simp [Res.bind, eraseResV]
          | stuck => simp [Res.bind, eraseResV]
          | ok domT =>
              have hbeq : Value.beq (eraseV domT) Value.type =
                  Value.beq domT Value.type := by
                simpa using erase_beqV domT .type
              simp only [Res.bind, eraseResV, hbeq]
              by_cases hb : Value.beq domT Value.type = true
              · have ihe := eval_erase fuel ctx dom
                simp only [hb, if_true, ihe]
                cases he : eval fuel ctx dom with
                | err e2 => simp [Res.bind, eraseResV]
                | stuck => simp [Res.bind, eraseResV]
                | ok domV =>
                    have ihc :=
                      infer_erase fuel
                        ({ name := .gen ctx.length, ty := domV, val := none } :: ctx)
                        (instT (.var (.free (.gen ctx.length))) 0 cod)
                    simp only [Res.bind, eraseResV, instT_free_erase,
                      eraseCtx_extend, ihc]
                    cases infer fuel
                        ({ name := .gen ctx.length, ty := domV, val := none } :: ctx)
                        (instT (.var (.free (.gen ctx.length))) 0 cod) with
                    | err e2 => simp [Res.bind, eraseResV]
                    | stuck => simp [Res.bind, eraseResV]
                    | ok codT =>
                        have hbeq2 : Value.beq (eraseV codT) Value.type =
                            Value.beq codT Value.type := by
                          simpa using erase_beqV codT .type
                        simp only [Res.bind, eraseResV, hbeq2]
                        by_cases hb2 : Value.beq codT Value.type = true <;>
                          simp [hb2, eraseResV, eraseErr, eraseV]
              · simp [hb, eraseResV, eraseErr, eraseV]
      | app f a =>
          have ihf := infer_erase fuel ctx f
          simp only [infer, eraseT, ihf]
          cases hf : infer fuel ctx f with
          | err e2 => simp [Res.bind, eraseResV]
          | stuck => simp [Res.bind, eraseResV]
          | ok fT =>
              simp only [Res.bind, eraseResV]
              cases fT with
              | pi n2 d2 c2 =>
                  have ihc := check_erase fuel ctx a d2
                  have ihe := eval_erase fuel ctx a
                  simp only [eraseV, ihc, ihe]
                  cases hc : check fuel ctx a d2 with
                  | err e2 => simp [Res.bind, eraseResU, eraseResV]
                  | stuck => simp [Res.bind, eraseResU, eraseResV]
                  | ok u =>
                      simp only [Res.bind, eraseResU]
                      cases he : eval fuel ctx a with
                      | err e2 => simp [Res.bind, eraseResV]
                      | stuck => simp [Res.bind, eraseResV]
                      | ok aV => simpa [Res.bind] using substV_erase fuel aV c2
              | type => rfl
              | var v2 => rfl
              | lam n2 a2 b2 => cases a2 <;> rfl
              | app f2 a2 => rfl

/-- Type checking commutes with hint erasure of the context, the term and
the expected type. -/
theorem check_erase :
    ∀ (fuel : Nat) (ctx : Context) (t : Term) (v : Value),
      check fuel (eraseCtx ctx) (eraseT t) (eraseV v) = eraseResU (check fuel ctx t v)
  | 0, _, _, _ => rfl
  | fuel + 1, ctx, t, v => by
      cases t with
      | lam n a body =>
          cases v with
          | pi pn pd pc =>
              cases a with
              | none =>
                  have ihs := substV_free_erase fuel (.gen ctx.length) pc
                  simp only [check, eraseT, eraseV, eraseCtx_length, ihs]
                  cases hs : substV fuel (.var (.free (.gen ctx.length))) pc with
                  | err e2 => simp [Res.bind, eraseResV, eraseResU]
                  | stuck => simp [Res.bind, eraseResV, eraseResU]
                  | ok pc2 =>
                      have ihb :=
                        check_erase fuel
                          ({ name := .gen ctx.length, ty := pd, val := none } :: ctx)
                          (instT (.var (.free (.gen ctx.length))) 0 body) pc2
                      simp only [Res.bind, eraseResV, instT_free_erase, eraseCtx_extend]
                      exact ihb
              | some a =>
                  have ihe := eval_erase fuel ctx a
                  simp only [check, eraseT, eraseV, ihe, eraseCtx_length]
                  cases he : eval fuel ctx a with
                  | err e2 => simp [Res.bind, eraseResV, eraseResU]
                  | stuck => simp [Res.bind, eraseResV, eraseResU]
                  | ok aV =>
                      have hbeq : Value.beq (eraseV aV) (eraseV pd) =
                          Value.beq aV pd := erase_beqV aV pd
                      simp only [Res.bind, eraseResV, hbeq]
                      by_cases hb : Value.beq aV pd = true
                      · have ihs := substV_free_erase fuel (.gen ctx.length) pc
                        simp only [hb, if_true, ihs]
                        cases hs : substV fuel (.var (.free (.gen ctx.length))) pc with
                        | err e2 => simp [Res.bind, eraseResV, eraseResU]
                        | stuck => simp [Res.bind, eraseResV, eraseResU]
                        | ok pc2 =>
                            have ihb :=
                              check_erase fuel
                                ({ name := .gen ctx.length, ty := pd, val := none } :: ctx)
                                (instT (.var (.free (.gen ctx.length))) 0 body) pc2
                            simp only [Res.bind, eraseResV, instT_free_erase,
                              eraseCtx_extend]
                            exact ihb
                      · simp [hb, eraseResU, eraseErr]
          | var v2 => cases a <;> rfl
          | type => cases a <;> rfl
          | lam n2 a2 b2 => cases a <;> cases a2 <;> rfl
          | app f2 a2 => cases a <;> rfl
      | var w =>
          have ihi := infer_erase fuel ctx (.var w)
          simp only [eraseT] at ihi
          simp only [check, eraseT, ihi]
          cases hi : infer fuel ctx (.var w) with
          | err e2 => simp [Res.bind, eraseResV, eraseResU]
          | stuck => simp [Res.bind, eraseResV, eraseResU]
          | ok found =>
              have hbeq := erase_beqV found v
              simp only [Res.bind, eraseResV, hbeq]
              by_cases hb : Value.beq found v = true <;>
                simp [hb, eraseResU, eraseErr]
      | type =>
          have ihi := infer_erase fuel ctx .type
          simp only [eraseT] at ihi
          simp only [check, eraseT, ihi]
          cases hi : infer fuel ctx .type with
          | err e2 => simp [Res.bind, eraseResV, eraseResU]
          | stuck => simp [Res.bind, eraseResV, eraseResU]
          | ok found =>
              have hbeq := erase_beqV found v
              simp only [Res.bind, eraseResV, hbeq]
              by_cases hb : Value.beq found v = true <;>
                simp [hb, eraseResU, eraseErr]
      | ann e ty =>
          have ihi := infer_erase fuel ctx (.ann e ty)
          simp only [eraseT] at ihi
          simp only [check, eraseT, ihi]
          cases hi : infer fuel ctx (.ann e ty) with
          | err e2 => simp [Res.bind, eraseResV, eraseResU]
          | stuck => simp [Res.bind, eraseResV, eraseResU]
          | ok found =>
              have hbeq := erase_beqV found v
              simp only [Res.bind, eraseResV, hbeq]
              by_cases hb : Value.beq found v = true <;>
                simp [hb, eraseResU, eraseErr]
      | pi n2 d2 c2 =>
          have ihi := infer_erase fuel ctx (.pi n2 d2 c2)
          simp only [eraseT] at ihi
          simp only [check, eraseT, ihi]
          cases hi : infer fuel ctx (.pi n2 d2 c2) with
          | err e2 => simp [Res.bind, eraseResV, eraseResU]
          | stuck => simp [Res.bind, eraseResV, eraseResU]
          | ok found =>
              have hbeq := erase_beqV found v
              simp only [Res.bind, eraseResV, hbeq]
              by_cases hb : Value.beq found v = true <;>
                simp [hb, eraseResU, eraseErr]
      | app f2 a2 =>
          have ihi := infer_erase fuel ctx (.app f2 a2)
          simp only [eraseT] at ihi
          simp only [check, eraseT, ihi]
          cases hi : infer fuel ctx (.app f2 a2) with
          | err e2 => simp [Res.bind, eraseResV, eraseResU]
          | stuck => simp [Res.bind, eraseResV, eraseResU]
          | ok found =>
              have hbeq := erase_beqV found v
              simp only [Res.bind, eraseResV, hbeq]
              by_cases hb : Value.beq found v = true <;>
                simp [hb, eraseResU, eraseErr]

end

/-- C3: renaming cosmetic name-hints never changes evaluation or inference
results: whenever two terms have the same hint erasure — that is, one is the
other with some bound-variable hints and binder names renamed — eval returns
results equal under the alpha-aware result equality, and so does infer, in
any context; bound-variable equality reads only the binding depth.  In
particular the values of the identity type written with binder A and with
binder a are equal, as are a dependent binder and its abstract arrow form. -/
theorem claim_c3_alpha_invariance (fuel : Nat) (ctx : Context) (t t2 : Term)
    (h : eraseT t = eraseT t2) :
    Res.beqValue (eval fuel ctx t) (eval fuel ctx t2) = true ∧
    Res.beqValue (infer fuel ctx t) (infer fuel ctx t2) = true := by
  constructor
  · apply beqRes_of_erase
    rw [← eval_erase fuel ctx t, ← eval_erase fuel ctx t2, h]
  · apply beqRes_of_erase
    rw [← infer_erase fuel ctx t, ← infer_erase fuel ctx t2, h]

/-- Witness for C3 at the identity type written with binder name A and with
binder name a: the two terms differ only in hints, and both their evaluations
and their inferred types agree. -/
theorem claim_c3_alpha_invariance_witness :
    eraseT idTyA = eraseT idTya ∧
    (Res.beqValue (eval 32 [] idTyA) (eval 32 [] idTya) = true ∧
      Res.beqValue (infer 32 [] idTyA) (infer 32 [] idTya) = true) :=
  ⟨rfl, claim_c3_alpha_invariance 32 [] idTyA idTya rfl⟩

end Pikelet
